import Mathlib

/-!
A shallow embedding of the HyperLogLog cardinality estimator
(`hyperloglog.go`) together with proofs about its operations.

Modelling conventions:
* Go's `uint32` arithmetic is `ℕ` with explicit `% 2^32` (written
  `% 4294967296`) where the Go operation wraps; `uint` and `uint8` values
  are `ℕ`; `int` is `ℤ`.
* `float64` arithmetic is modelled over `ℝ`; `uint64(e)` truncation of a
  nonnegative float is `(⌊e⌋).toNat`.
* Mutation of the receiver is modelled by returning the updated receiver;
  a Go `error` return is an `Option HLLError` component.
-/

namespace Hyperloglog

/-- The package-level constant `exp32 = math.Pow(2, 32)`. -/
noncomputable def exp32 : ℝ := 2 ^ (32 : ℕ)

/-- The `HyperLogLog` struct: `m uint` (number of registers), `b uint32`
(index bits), `alpha float64` (bias correction), `registers []uint8`. -/
structure HyperLogLog where
  m : ℕ
  b : ℕ
  alpha : ℝ
  registers : List ℕ

/-- Structured form of the `error` values the Go code builds with
`fmt.Errorf`; the constructors carry the numbers interpolated into the
message. `deserializationFailure` is the error the specification expects
from a failed decode. -/
inductive HLLError where
  | invalidConfiguration (registers : ℕ)
  | incompatibleEstimators (m1 m2 : ℕ)
  | deserializationFailure
deriving DecidableEq

/-- `get_alpha`: bias correction constant `alpha_m`. -/
noncomputable def get_alpha (m : ℕ) : ℝ :=
  match m with
  | 16 => 0.673
  | 32 => 0.697
  | 64 => 0.709
  | _ => 0.7213 / (1.0 + 1.079 / (m : ℝ))

/-- The constructor's `uint32(math.Ceil(math.Log2(float64(registers))))`,
over `ℝ`. For every power of two this is exact, matching Go. (For
`registers = 0` Go's conversion of `-Inf` to `uint32` is
implementation-specific; no claim depends on the value of `b` there.) -/
noncomputable def log2ceil (m : ℕ) : ℕ := (⌈Real.logb 2 (m : ℝ)⌉).toNat

/-- `Reset`: `h.registers = make([]uint8, h.m)`. -/
def Reset (h : HyperLogLog) : HyperLogLog :=
  { h with registers := List.replicate h.m 0 }

/-- `New(registers)`: rejects `registers` with `registers & (registers-1) != 0`,
otherwise builds the struct and calls `Reset`. (For `registers = 0` Go's
`registers - 1` wraps to the all-ones word, and `0 & x = 0`, so the test
passes; `ℕ` subtraction gives `0 - 1 = 0` and `0 &&& 0 = 0`, the same
outcome.) -/
noncomputable def New (registers : ℕ) : Except HLLError HyperLogLog :=
  if registers &&& (registers - 1) ≠ 0 then
    .error (.invalidConfiguration registers)
  else
    .ok (Reset { m := registers, b := log2ceil registers,
                 alpha := get_alpha registers, registers := [] })

/-- The loop of `rho`: `for val & 0x80000000 == 0 && r <= max { r++; val <<= 1 }`;
the `uint32` left shift wraps modulo `2^32`. -/
def rhoGo (max val r : ℕ) : ℕ :=
  if h : val &&& 2147483648 = 0 ∧ r ≤ max then
    rhoGo max ((val * 2) % 4294967296) (r + 1)
  else r
termination_by max + 1 - r
decreasing_by obtain ⟨-, h2⟩ := h; omega

/-- `rho(val, max)`: position of the leftmost 1-bit, starting from `r = 1`.
The Go function returns `uint8(r)`; at every call site `r ≤ max + 1 ≤ 33`,
so the narrowing cast is the identity. -/
def rho (val max : ℕ) : ℕ := rhoGo max val 1

/-- `Add(val)`: `k = 32 - h.b`, `r = rho(val << h.b, k)`, `j = val >> k`,
then `h.registers[j] = r` if `r` exceeds the stored value. The Go register
read `h.registers[j]` panics when `j` is out of range; the model reads
`getD j 0` and updates with `List.set` (a no-op out of range) — the claims
carry the length invariant that keeps `j` in range. -/
def Add (h : HyperLogLog) (val : ℕ) : HyperLogLog :=
  let k := 32 - h.b
  let r := rho ((val * 2 ^ h.b) % 4294967296) k
  let j := val / 2 ^ k
  if r > h.registers.getD j 0 then { h with registers := h.registers.set j r }
  else h

/-- `Count()`: harmonic-mean estimate with small- and large-range
corrections, truncated to an unsigned integer. -/
noncomputable def Count (h : HyperLogLog) : ℕ :=
  let m : ℝ := (h.m : ℝ)
  let sum : ℝ := (h.registers.map (fun val => 1 / (2 : ℝ) ^ val)).sum
  let estimate : ℝ := h.alpha * m * m / sum
  let corrected : ℝ :=
    if estimate ≤ 5 / 2 * m then
      let v : ℕ := h.registers.count 0
      if 0 < v then m * Real.log (m / (v : ℝ)) else estimate
    else if 1 / 30 * exp32 < estimate then
      -exp32 * Real.log (1 - estimate / exp32)
    else estimate
  (⌊corrected⌋).toNat

/-- The register update of `Merge`: for each index `j` of `r2`,
`r1[j] = max(r1[j], r2[j])`; entries of `r1` past the length of `r2` are
unchanged. (When `r2` is longer than `r1` the Go loop panics on an
out-of-range index; `Merge` is only reached with equal lengths under the
claims' length invariant.) -/
def mergeRegisters (r1 r2 : List ℕ) : List ℕ :=
  r1.zipWith max r2 ++ r1.drop r2.length

/-- `Merge(h2)`: fails when the register counts differ, otherwise takes the
pointwise maximum into the receiver. -/
def Merge (h1 h2 : HyperLogLog) : HyperLogLog × Option HLLError :=
  if h1.m ≠ h2.m then (h1, some (.incompatibleEstimators h1.m h2.m))
  else ({ h1 with registers := mergeRegisters h1.registers h2.registers }, none)

/-- `Intersect(h2)`: inclusion–exclusion over a fresh merged estimator,
clamped at zero. The Go code discards the error results of the two inner
`Merge` calls (they cannot fail there), hence the `.1` projections. -/
noncomputable def Intersect (h1 h2 : HyperLogLog) : ℕ × Option HLLError :=
  if h1.m ≠ h2.m then (0, some (.incompatibleEstimators h1.m h2.m))
  else
    match New h1.m with
    | .error e => (0, some e)
    | .ok merged =>
      let merged1 := (Merge merged h1).1
      let merged2 := (Merge merged1 h2).1
      let unionCount := Count merged2
      let cumulativeCount := Count h1 + Count h2
      if unionCount > cumulativeCount then (0, none)
      else (cumulativeCount - unionCount, none)

/-- The serialized `DataObj` struct (`M uint`, `B uint32`, `A float64`,
`R []int`); `R` is `List ℤ` since Go's `int` is signed. -/
structure DataObj where
  M : ℕ
  B : ℕ
  A : ℝ
  R : List ℤ

/-- `Unserialize(str)`: JSON parsing is outside the model, so the parse
result is the input (`none` = `json.Unmarshal` returned an error). The Go
method has no return value: on a parse error it prints the error and
returns with `h` untouched, so the `Option HLLError` component modelling
its (absent) error return is always `none`. `uint8(v)` is `v` modulo 256. -/
def Unserialize (h : HyperLogLog) (parsed : Option DataObj) :
    HyperLogLog × Option HLLError :=
  match parsed with
  | none => (h, none)
  | some d =>
    ({ m := d.M, b := d.B, alpha := d.A,
       registers := d.R.map (fun v => (v % 256).toNat) }, none)

/-! ### Definitions written from the specification's words -/

/-- Spec-side rank: the position of the leftmost set bit of the 32-bit
word `val`, 1-indexed from the most significant bit (`33 - Nat.size val`
is the count of leading zeros plus one), clamped at the maximum
`max + 1`. -/
def rankSpec (val max : ℕ) : ℕ := min (33 - Nat.size val) (max + 1)

/-- Spec-side bias constant: the fixed published values for m = 16, 32,
64 and the general formula `0.7213/(1 + 1.079/m)` otherwise. -/
noncomputable def alphaSpec (m : ℕ) : ℝ :=
  if m = 16 then 0.673
  else if m = 32 then 0.697
  else if m = 64 then 0.709
  else 0.7213 / (1 + 1.079 / (m : ℝ))

/-- Spec-side count: `E = alpha * m² / Σ 2^(-registers[i])`, the
small-range rule at `E ≤ 2.5·m` (linear counting when some register is
zero), the large-range rule at `E > (1/30)·2^32`, truncated to an
unsigned integer. -/
noncomputable def CountSpec (h : HyperLogLog) : ℕ :=
  let m : ℝ := (h.m : ℝ)
  let E : ℝ := h.alpha * m ^ 2 / (h.registers.map (fun (r : ℕ) => (2 : ℝ) ^ (-(r : ℤ)))).sum
  let v : ℕ := h.registers.count 0
  let corrected : ℝ :=
    if E ≤ 2.5 * m then
      (if 0 < v then m * Real.log (m / (v : ℝ)) else E)
    else if E > 1 / 30 * (2 : ℝ) ^ (32 : ℕ) then
      -(2 : ℝ) ^ (32 : ℕ) * Real.log (1 - E / (2 : ℝ) ^ (32 : ℕ))
    else E
  (⌊corrected⌋).toNat

/-- The first stage of `Count` in isolation: the raw harmonic-mean
estimate `alpha * m * m / Σ 1/2^registers[i]` before either range
correction. -/
noncomputable def rawEstimate (h : HyperLogLog) : ℝ :=
  h.alpha * (h.m : ℝ) * (h.m : ℝ) /
    ((h.registers.map (fun val => 1 / (2 : ℝ) ^ val)).sum)

/-- A concrete estimator as produced by `New 16`, used to instantiate
hypothesis-bearing theorems. -/
noncomputable def sample16 : HyperLogLog :=
  { m := 16, b := 4, alpha := get_alpha 16, registers := List.replicate 16 0 }

/-! ### General lemmas -/

theorem and_top_bit_eq_zero_iff {val : ℕ} (h32 : val < 4294967296) :
    val &&& 2147483648 = 0 ↔ val < 2147483648 := by
  have h31 : (2147483648 : ℕ) = 2 ^ 31 := by norm_num
  have hdm := Nat.div_add_mod val 2147483648
  have hml : val % 2147483648 < 2147483648 := Nat.mod_lt _ (by norm_num)
  have hdiv : val / 2147483648 < 2 := by omega
  have hmod : val / 2147483648 % 2 = val / 2147483648 := Nat.mod_eq_of_lt hdiv
  have hand : val &&& 2147483648 = (val.testBit 31).toNat * 2147483648 := by
    rw [h31, Nat.and_two_pow]
  have htb : val.testBit 31 = decide (val / 2147483648 % 2 = 1) := by
    rw [Nat.testBit_to_div_mod]
  rw [hand, htb, hmod]
  rcases (by omega : val / 2147483648 = 0 ∨ val / 2147483648 = 1) with hq | hq <;>
    rw [hq] <;> simp <;> omega

theorem size_two_mul {v : ℕ} (hv : 0 < v) : Nat.size (v * 2) = Nat.size v + 1 := by
  have h1 : Nat.size (v * 2) ≤ Nat.size v + 1 := by
    rw [Nat.size_le, pow_succ]
    exact (Nat.mul_lt_mul_right (by norm_num)).mpr (Nat.lt_size_self v)
  have h0 : 0 < Nat.size v := Nat.size_pos.mpr hv
  have h2 : Nat.size v < Nat.size (v * 2) := by
    rw [Nat.lt_size]
    have hle : 2 ^ (Nat.size v - 1) ≤ v := by
      rw [← Nat.lt_size]; omega
    calc 2 ^ Nat.size v = 2 ^ (Nat.size v - 1) * 2 := by
          rw [← pow_succ]; congr 1; omega
      _ ≤ v * 2 := mul_le_mul_right' hle 2
  omega

theorem rhoGo_eq (d : ℕ) : ∀ val r max : ℕ, max ≤ 32 → 1 ≤ r →
    val < 4294967296 → r + d = max + 1 →
    rhoGo max val r = min (r + (32 - Nat.size val)) (max + 1) := by
  induction d with
  | zero =>
    intro val r max hmax hr h32 hd
    rw [rhoGo, dif_neg (by omega : ¬(val &&& 2147483648 = 0 ∧ r ≤ max))]
    have : Nat.size val ≤ 32 := Nat.size_le.mpr (by norm_num; omega)
    omega
  | succ d ih =>
    intro val r max hmax hr h32 hd
    have hrmax : r ≤ max := by omega
    by_cases hA : val &&& 2147483648 = 0
    · have hlt : val < 2147483648 := (and_top_bit_eq_zero_iff h32).mp hA
      have hmul : val * 2 < 4294967296 := by omega
      rw [rhoGo, dif_pos ⟨hA, hrmax⟩, Nat.mod_eq_of_lt hmul]
      rcases Nat.eq_zero_or_pos val with hv | hv
      · subst hv
        rw [ih _ _ max hmax (by omega) (by omega) (by omega)]
        simp only [Nat.zero_mul, Nat.size_zero]
        omega
      · have hsz := size_two_mul hv
        have hszle : Nat.size val ≤ 31 := Nat.size_le.mpr (by norm_num; omega)
        rw [ih _ _ max hmax (by omega) hmul (by omega), hsz]
        omega
    · rw [rhoGo, dif_neg (by tauto)]
      have hge : 2147483648 ≤ val := by
        by_contra hcon
        exact hA ((and_top_bit_eq_zero_iff h32).mpr (by omega))
      have hsz1 : Nat.size val ≤ 32 := Nat.size_le.mpr (by norm_num; omega)
      have hsz2 : 31 < Nat.size val := Nat.lt_size.mpr (by norm_num; omega)
      omega

theorem rho_eq_rankSpec {val max : ℕ} (h32 : val < 4294967296) (hmax : max ≤ 32) :
    rho val max = rankSpec val max := by
  have hsz : Nat.size val ≤ 32 := Nat.size_le.mpr (by norm_num; omega)
  rw [rho, rhoGo_eq max val 1 max hmax le_rfl h32 (by omega)]
  unfold rankSpec
  omega

theorem testBit_true_of_bounds {x i : ℕ} (h1 : 2 ^ i ≤ x) (h2 : x < 2 ^ (i + 1)) :
    x.testBit i = true := by
  rw [Nat.testBit_to_div_mod]
  have hdiv : x / 2 ^ i = 1 := by
    apply Nat.div_eq_of_lt_le (by simpa using h1)
    rw [pow_succ] at h2
    omega
  rw [hdiv]
  rfl

theorem land_pred_eq_zero_iff {m : ℕ} (hm : 0 < m) :
    m &&& (m - 1) = 0 ↔ ∃ k, m = 2 ^ k := by
  constructor
  · intro hand
    have hs1 : 0 < m.size := Nat.size_pos.mpr hm
    have hlow : 2 ^ (m.size - 1) ≤ m := by
      rw [← Nat.lt_size]; omega
    have hhigh : m < 2 ^ m.size := Nat.lt_size_self m
    refine ⟨m.size - 1, le_antisymm ?_ hlow⟩
    by_contra hne
    push_neg at hne
    have hb1 : m.testBit (m.size - 1) = true :=
      testBit_true_of_bounds hlow (by rw [show m.size - 1 + 1 = m.size by omega]; exact hhigh)
    have hb2 : (m - 1).testBit (m.size - 1) = true :=
      testBit_true_of_bounds (by omega) (by rw [show m.size - 1 + 1 = m.size by omega]; omega)
    have := congrArg (fun x => Nat.testBit x (m.size - 1)) hand
    simp only [Nat.testBit_land, hb1, hb2, Nat.zero_testBit, Bool.and_self] at this
    exact absurd this (by decide)
  · rintro ⟨k, rfl⟩
    apply Nat.eq_of_testBit_eq
    intro i
    rw [Nat.testBit_land, Nat.testBit_two_pow, Nat.testBit_two_pow_sub_one,
      Nat.zero_testBit]
    simp only [Bool.and_eq_false_iff, decide_eq_false_iff_not]
    omega

theorem log2ceil_pow (k : ℕ) : log2ceil (2 ^ k) = k := by
  unfold log2ceil
  have hcast : (((2 : ℕ) ^ k : ℕ) : ℝ) = (2 : ℝ) ^ k := by push_cast; ring
  have hlog : Real.logb 2 ((2 : ℝ) ^ k) = (k : ℝ) := by
    rw [Real.logb, Real.log_pow, mul_div_assoc,
      div_self (Real.log_pos one_lt_two).ne', mul_one]
  rw [hcast, hlog, Int.ceil_natCast, Int.toNat_natCast]

theorem get_alpha_eq_alphaSpec (m : ℕ) : get_alpha m = alphaSpec m := by
  by_cases h16 : m = 16
  · subst h16; simp [get_alpha, alphaSpec]
  · by_cases h32 : m = 32
    · subst h32; simp [get_alpha, alphaSpec]
    · by_cases h64 : m = 64
      · subst h64; simp [get_alpha, alphaSpec]
      · unfold get_alpha alphaSpec
        rw [if_neg h16, if_neg h32, if_neg h64]
        split
        · exact absurd rfl h16
        · exact absurd rfl h32
        · exact absurd rfl h64
        · norm_num

theorem mergeRegisters_cons (a b : ℕ) (t t2 : List ℕ) :
    mergeRegisters (a :: t) (b :: t2) = max a b :: mergeRegisters t t2 := rfl

theorem mergeRegisters_nil_right (l : List ℕ) : mergeRegisters l [] = l := by
  unfold mergeRegisters
  simp

theorem mergeRegisters_self (l : List ℕ) : mergeRegisters l l = l := by
  induction l with
  | nil => rfl
  | cons a t ih => rw [mergeRegisters_cons, max_self, ih]

theorem mergeRegisters_comm {l1 l2 : List ℕ} (h : l1.length = l2.length) :
    mergeRegisters l1 l2 = mergeRegisters l2 l1 := by
  unfold mergeRegisters
  rw [List.zipWith_comm_of_comm max max_comm,
    List.drop_of_length_le (le_of_eq h),
    List.drop_of_length_le (le_of_eq h.symm)]

theorem mergeRegisters_length (l1 l2 : List ℕ) :
    (mergeRegisters l1 l2).length = l1.length := by
  unfold mergeRegisters
  rw [List.length_append, List.length_zipWith, List.length_drop]
  omega

theorem mergeRegisters_getD {l1 l2 : List ℕ} (h : l1.length = l2.length) (i : ℕ) :
    (mergeRegisters l1 l2).getD i 0 = max (l1.getD i 0) (l2.getD i 0) := by
  induction l1 generalizing l2 i with
  | nil =>
    cases l2 with
    | nil => simp [mergeRegisters]
    | cons b t2 => simp at h
  | cons a t ih =>
    cases l2 with
    | nil => simp at h
    | cons b t2 =>
      rw [mergeRegisters_cons]
      cases i with
      | zero => simp
      | succ n =>
        simp only [List.getD_cons_succ]
        exact ih (by simpa using h) n

/-! ### Claim theorems -/

/-- C1: For every 32-bit hash and every estimator with index bits `b`,
`Add` selects register index `j = hash >> (32 - b)`, computes the rank
`r = rho(hash << b, 32 - b)` — the position of the leftmost set bit of the
remaining bits left-shifted into a 32-bit word, a value in `[1, 32-b+1]`
clamped at the maximum — sets `registers[j] = max(registers[j], r)`,
changes no other register and no other field, and never fails for any
32-bit input. -/
theorem C1_add_spec (h : HyperLogLog) (hash : ℕ) (hhash : hash < 4294967296)
    (hb : h.b ≤ 32) (hm : h.m = 2 ^ h.b) (hlen : h.registers.length = h.m) :
    hash / 2 ^ (32 - h.b) < h.m ∧
    rho ((hash * 2 ^ h.b) % 4294967296) (32 - h.b)
      = rankSpec ((hash * 2 ^ h.b) % 4294967296) (32 - h.b) ∧
    1 ≤ rho ((hash * 2 ^ h.b) % 4294967296) (32 - h.b) ∧
    rho ((hash * 2 ^ h.b) % 4294967296) (32 - h.b) ≤ 32 - h.b + 1 ∧
    (Add h hash).registers.getD (hash / 2 ^ (32 - h.b)) 0
      = max (h.registers.getD (hash / 2 ^ (32 - h.b)) 0)
          (rho ((hash * 2 ^ h.b) % 4294967296) (32 - h.b)) ∧
    (∀ i, i ≠ hash / 2 ^ (32 - h.b) →
      (Add h hash).registers.getD i 0 = h.registers.getD i 0) ∧
    (Add h hash).registers.length = h.registers.length ∧
    (Add h hash).m = h.m ∧ (Add h hash).b = h.b ∧ (Add h hash).alpha = h.alpha := by
  have hmod32 : (hash * 2 ^ h.b) % 4294967296 < 4294967296 :=
    Nat.mod_lt _ (by norm_num)
  have hk32 : 32 - h.b ≤ 32 := by omega
  have hrank := rho_eq_rankSpec hmod32 hk32
  have hszle : Nat.size ((hash * 2 ^ h.b) % 4294967296) ≤ 32 :=
    Nat.size_le.mpr (by norm_num; omega)
  have hr1 : 1 ≤ rho ((hash * 2 ^ h.b) % 4294967296) (32 - h.b) := by
    rw [hrank]; unfold rankSpec; omega
  have hr2 : rho ((hash * 2 ^ h.b) % 4294967296) (32 - h.b) ≤ 32 - h.b + 1 := by
    rw [hrank]; unfold rankSpec; omega
  have hpow : (2 : ℕ) ^ h.b * 2 ^ (32 - h.b) = 4294967296 := by
    rw [← pow_add]
    have : h.b + (32 - h.b) = 32 := by omega
    rw [this]
    norm_num
  have hj : hash / 2 ^ (32 - h.b) < h.m := by
    rw [hm, Nat.div_lt_iff_lt_mul (by positivity)]
    omega
  have hjlen : hash / 2 ^ (32 - h.b) < h.registers.length := by omega
  refine ⟨hj, hrank, hr1, hr2, ?_, ?_, ?_, ?_, ?_, ?_⟩ <;>
    simp only [Add] <;>
    by_cases hgt : h.registers.getD (hash / 2 ^ (32 - h.b)) 0 <
      rho ((hash * 2 ^ h.b) % 4294967296) (32 - h.b)
  · rw [if_pos hgt, List.getD_eq_getElem?_getD, List.getElem?_set_self hjlen]
    simp only [Option.getD_some]
    exact (max_eq_right (le_of_lt hgt)).symm
  · rw [if_neg hgt]
    exact (max_eq_left (not_lt.mp hgt)).symm
  · intro i hi
    rw [if_pos hgt]
    simp only [List.getD_eq_getElem?_getD,
      List.getElem?_set_ne (Ne.symm hi)]
  · intro i _
    rw [if_neg hgt]
  · rw [if_pos hgt]; exact List.length_set ..
  · rw [if_neg hgt]
  · rw [if_pos hgt]
  · rw [if_neg hgt]
  · rw [if_pos hgt]
  · rw [if_neg hgt]
  · rw [if_pos hgt]
  · rw [if_neg hgt]

/-- Witness for C1 at a concrete estimator and hash. -/
theorem C1_add_spec_witness :
    (12345 : ℕ) < 4294967296 ∧ sample16.b ≤ 32 ∧ sample16.m = 2 ^ sample16.b ∧
    sample16.registers.length = sample16.m ∧
    (Add sample16 12345).registers.getD (12345 / 2 ^ (32 - sample16.b)) 0
      = max (sample16.registers.getD (12345 / 2 ^ (32 - sample16.b)) 0)
          (rho ((12345 * 2 ^ sample16.b) % 4294967296) (32 - sample16.b)) :=
  ⟨by norm_num, by decide, by decide, by simp [sample16],
   (C1_add_spec sample16 12345 (by norm_num) (by decide) (by decide)
      (by simp [sample16])).2.2.2.2.1⟩

/-- C3: For every positive `registerCount`, `New` fails with
`invalidConfiguration` exactly when `registerCount` is not a power of two;
on success it sets `b = ceil(log2(registerCount))` (the exponent, for a
power of two), sets `alpha` to the published value for m = 16, 32, 64 and
to `0.7213/(1 + 1.079/m)` otherwise, and zeroes all registers. -/
theorem C3_new_spec (m : ℕ) (hm : 0 < m) :
    (New m = .error (.invalidConfiguration m) ↔ ¬∃ k, m = 2 ^ k) ∧
    (∀ k, m = 2 ^ k →
      New m = .ok { m := m, b := k, alpha := alphaSpec m,
                    registers := List.replicate m 0 }) ∧
    get_alpha m = alphaSpec m := by
  refine ⟨⟨?_, ?_⟩, ?_, get_alpha_eq_alphaSpec m⟩
  · intro herr hpow
    rcases hpow with ⟨k, rfl⟩
    rw [New, if_neg (by simp [(land_pred_eq_zero_iff hm).mpr ⟨k, rfl⟩])] at herr
    exact Except.noConfusion herr
  · intro hnp
    rw [New, if_pos]
    intro hzero
    exact hnp ((land_pred_eq_zero_iff hm).mp hzero)
  · rintro k rfl
    rw [New, if_neg (by simp [(land_pred_eq_zero_iff hm).mpr ⟨k, rfl⟩])]
    simp [Reset, log2ceil_pow, get_alpha_eq_alphaSpec]

/-- Witness for C3: `New` rejects 10 and accepts 16. -/
theorem C3_new_spec_witness :
    (0 : ℕ) < 10 ∧ New 10 = .error (.invalidConfiguration 10) ∧
    New 16 = .ok { m := 16, b := 4, alpha := alphaSpec 16,
                   registers := List.replicate 16 0 } := by
  have h8 : (2 : ℕ) ^ 3 = 8 := by norm_num
  have h16 : (2 : ℕ) ^ 4 = 16 := by norm_num
  refine ⟨by norm_num, (C3_new_spec 10 (by norm_num)).1.mpr ?_,
    (C3_new_spec 16 (by norm_num)).2.1 4 (by norm_num)⟩
  rintro ⟨k, hk⟩
  rcases le_or_lt k 3 with h | h
  · have := Nat.pow_le_pow_right (by norm_num : 0 < 2) h
    omega
  · have := Nat.pow_le_pow_right (by norm_num : 0 < 2) h
    omega

/-- C4: With equal register counts, `Merge(A,B)` succeeds, takes the
pointwise maximum of the register arrays into the receiver, leaves every
other field unchanged, is register-wise commutative, and merging an
estimator into itself changes nothing. -/
theorem C4_merge_spec (h1 h2 : HyperLogLog) (hm : h1.m = h2.m)
    (hl1 : h1.registers.length = h1.m) (hl2 : h2.registers.length = h2.m) :
    (Merge h1 h2).2 = none ∧
    (Merge h1 h2).1.m = h1.m ∧ (Merge h1 h2).1.b = h1.b ∧
    (Merge h1 h2).1.alpha = h1.alpha ∧
    (∀ i, (Merge h1 h2).1.registers.getD i 0
        = max (h1.registers.getD i 0) (h2.registers.getD i 0)) ∧
    (Merge h1 h2).1.registers = (Merge h2 h1).1.registers ∧
    Merge h1 h1 = (h1, none) := by
  have hlen : h1.registers.length = h2.registers.length := by omega
  rw [Merge, if_neg (by omega), Merge, if_neg (by omega), Merge,
    if_neg (by omega : ¬h1.m ≠ h1.m)]
  refine ⟨rfl, rfl, rfl, rfl, fun i => mergeRegisters_getD hlen i,
    mergeRegisters_comm hlen, ?_⟩
  rw [mergeRegisters_self]

/-- Witness for C4 at a concrete estimator. -/
theorem C4_merge_spec_witness : Merge sample16 sample16 = (sample16, none) :=
  (C4_merge_spec sample16 sample16 rfl (by simp [sample16])
    (by simp [sample16])).2.2.2.2.2.2

/-- C6: With differing register counts both `Merge` and `Intersect` fail
with `incompatibleEstimators` carrying both register counts, and the
receiver is returned unmodified. -/
theorem C6_incompatible (h1 h2 : HyperLogLog) (hm : h1.m ≠ h2.m) :
    Merge h1 h2 = (h1, some (.incompatibleEstimators h1.m h2.m)) ∧
    Intersect h1 h2 = (0, some (.incompatibleEstimators h1.m h2.m)) := by
  rw [Merge, if_pos hm, Intersect, if_pos hm]
  exact ⟨rfl, rfl⟩

/-- A concrete estimator as produced by `New 32`. -/
noncomputable def sample32 : HyperLogLog :=
  { m := 32, b := 5, alpha := get_alpha 32, registers := List.replicate 32 0 }

/-- Witness for C6 at register counts 16 and 32. -/
theorem C6_incompatible_witness :
    Merge sample16 sample32 = (sample16, some (.incompatibleEstimators 16 32)) ∧
    Intersect sample16 sample32 = (0, some (.incompatibleEstimators 16 32)) :=
  C6_incompatible sample16 sample32 (by decide)

/-- C8 (amended): `len(registers) = registerCount` is established by `New`
and `Reset`, preserved by `Add` and `Merge`, and preserved by `Unserialize`
exactly when the decode fails (state untouched) or the decoded register
array length equals the decoded `M`; an inconsistent decoded object breaks
the invariant. -/
theorem C8_length_invariant (m0 : ℕ) (h h1 h2 : HyperLogLog) (d : DataObj) :
    (∀ g, New m0 = .ok g → g.registers.length = g.m) ∧
    ((Reset h).registers.length = (Reset h).m) ∧
    (h.registers.length = h.m → ∀ v, (Add h v).registers.length = (Add h v).m) ∧
    (h1.registers.length = h1.m →
      (Merge h1 h2).1.registers.length = (Merge h1 h2).1.m) ∧
    ((Unserialize h none).1 = h) ∧
    (d.R.length = d.M →
      (Unserialize h (some d)).1.registers.length = (Unserialize h (some d)).1.m) := by
  refine ⟨?_, ?_, ?_, ?_, rfl, ?_⟩
  · intro g hg
    rw [New] at hg
    split at hg
    · exact Except.noConfusion hg
    · cases hg
      simp [Reset]
  · simp [Reset]
  · intro hl v
    rw [Add]
    split
    · simpa using hl
    · exact hl
  · intro hl
    rw [Merge]
    split
    · exact hl
    · simpa [mergeRegisters_length] using hl
  · intro hR
    simpa [Unserialize] using hR

/-- Witness for C8 at concrete inputs. -/
theorem C8_length_invariant_witness :
    sample16.registers.length = sample16.m ∧
    ∀ v, (Add sample16 v).registers.length = (Add sample16 v).m :=
  ⟨by simp [sample16],
    (C8_length_invariant 16 sample16 sample16 sample16
      { M := 16, B := 4, A := 0, R := [] }).2.2.1 (by simp [sample16])⟩

/-- A decoded object whose register array length does not match its `M`
field. -/
def badData : DataObj := { M := 5, B := 0, A := 0, R := [] }

/-- Counterexample for C8: starting from a valid estimator, `Unserialize`
of a parseable but inconsistent object (`M = 5`, empty register array)
leaves `len(registers) ≠ registerCount`. -/
theorem C8_counterexample :
    (Unserialize sample16 (some badData)).1.registers.length
      ≠ (Unserialize sample16 (some badData)).1.m := by
  simp [Unserialize, badData]

/-- C9 (amended): when the input cannot be parsed, `Unserialize` leaves
the target estimator unmodified and returns no error value at all; the
failure is only printed, never surfaced to the caller. -/
theorem C9_unserialize_failure (h : HyperLogLog) :
    Unserialize h none = (h, none) := rfl

/-- Counterexample for C9: on unparseable input the error component of
`Unserialize` is `none`, not `some deserializationFailure` — the Go method
has no error return; it prints the parse error and leaves the receiver
untouched. -/
theorem C9_counterexample :
    Unserialize sample16 none = (sample16, none) ∧
    (Unserialize sample16 none).2 ≠ some HLLError.deserializationFailure :=
  ⟨rfl, by simp [Unserialize]⟩

/-- C10: `New 0` succeeds: the power-of-two test `0 & (0-1)` evaluates to
`0`, so register count 0 passes construction, yielding an estimator with
`m = 0` and an empty register array and no error. -/
theorem C10_new_zero :
    (0 &&& (0 - 1) : ℕ) = 0 ∧
    ∃ h, New 0 = .ok h ∧ h.m = 0 ∧ h.registers = [] := by
  refine ⟨rfl,
    Reset { m := 0, b := log2ceil 0, alpha := get_alpha 0, registers := [] },
    ?_, rfl, rfl⟩
  rw [New, if_neg (by norm_num)]

theorem sum_pow_neg_eq (l : List ℕ) :
    (l.map (fun (r : ℕ) => (2 : ℝ) ^ (-(r : ℤ)))).sum
      = (l.map (fun val => 1 / (2 : ℝ) ^ val)).sum := by
  induction l with
  | nil => rfl
  | cons a t ih =>
    simp only [List.map_cons, List.sum_cons, ih, zpow_neg, zpow_natCast, one_div]

theorem get_alpha_le (m : ℕ) : get_alpha m ≤ 5 / 2 := by
  unfold get_alpha
  split
  · norm_num
  · norm_num
  · norm_num
  · have hnn : (0 : ℝ) ≤ 1.079 / (m : ℝ) := by positivity
    have h1 : (0.7213 : ℝ) / (1.0 + 1.079 / (m : ℝ)) ≤ 0.7213 :=
      div_le_self (by norm_num) (by norm_num; linarith)
    linarith

theorem Count_eq_of_sum (h : HyperLogLog) (S : ℝ)
    (hS : (h.registers.map (fun val => 1 / (2 : ℝ) ^ val)).sum = S) :
    Count h =
      (⌊if h.alpha * (h.m : ℝ) * (h.m : ℝ) / S ≤ 5 / 2 * (h.m : ℝ) then
          (if 0 < h.registers.count 0 then
            (h.m : ℝ) * Real.log ((h.m : ℝ) / (h.registers.count 0 : ℝ))
          else h.alpha * (h.m : ℝ) * (h.m : ℝ) / S)
        else if 1 / 30 * exp32 < h.alpha * (h.m : ℝ) * (h.m : ℝ) / S then
          -exp32 * Real.log (1 - h.alpha * (h.m : ℝ) * (h.m : ℝ) / S / exp32)
        else h.alpha * (h.m : ℝ) * (h.m : ℝ) / S⌋).toNat := by
  simp only [Count, hS]

/-- C2: `Count` computes the raw estimate `E = alpha·m²/Σ2^(-registers[i])`,
applies the small-range correction `m·ln(m/v)` when `E ≤ 2.5·m` and some
register is zero (keeping raw `E` when `v = 0`), applies the large-range
correction when `E > (1/30)·2^32`, truncates to an unsigned integer and
never fails; in particular on an all-zero register array it returns 0. -/
theorem C2_count_spec (h : HyperLogLog) :
    Count h = CountSpec h ∧
    (0 < h.m → h.alpha = get_alpha h.m → h.registers = List.replicate h.m 0 →
      Count h = 0) := by
  constructor
  · have h25 : (2.5 : ℝ) = 5 / 2 := by norm_num
    simp only [Count, CountSpec, exp32, sum_pow_neg_eq, h25, pow_two, mul_assoc]
  · intro hm halpha hreg
    have hm0 : ((h.m : ℕ) : ℝ) ≠ 0 := Nat.cast_ne_zero.mpr (by omega)
    have hsum : ((List.replicate h.m (0 : ℕ)).map (fun val => 1 / (2 : ℝ) ^ val)).sum
        = (h.m : ℝ) := by
      rw [List.map_replicate, List.sum_replicate, nsmul_eq_mul]
      norm_num
    have hcount : (List.replicate h.m (0 : ℕ)).count 0 = h.m := by simp
    simp only [Count, hreg, hsum, hcount]
    rw [if_pos, if_pos hm]
    · rw [div_self hm0, Real.log_one, mul_zero]
      simp
    · rw [mul_div_assoc, div_self hm0, mul_one, halpha]
      exact mul_le_mul_of_nonneg_right (get_alpha_le h.m) (Nat.cast_nonneg _)

/-- Witness for C2 at a freshly constructed 16-register estimator. -/
theorem C2_count_spec_witness :
    0 < sample16.m ∧ sample16.alpha = get_alpha sample16.m ∧
    sample16.registers = List.replicate sample16.m 0 ∧ Count sample16 = 0 :=
  ⟨by norm_num [sample16], rfl, rfl,
    (C2_count_spec sample16).2 (by norm_num [sample16]) rfl rfl⟩

/-- C5: With equal (power-of-two) register counts, `Intersect` builds a
fresh estimator via `New`, merges both inputs into it, and returns
`cumulativeCount - unionCount` with no error; when `unionCount`
exceeds `cumulativeCount` it returns exactly 0, so the result never
exceeds `cumulativeCount` and is never negative. -/
theorem C5_intersect_spec (h1 h2 : HyperLogLog) (hm : h1.m = h2.m)
    (hpow : ∃ k, h1.m = 2 ^ k) :
    (Intersect h1 h2).2 = none ∧
    (∀ fresh, New h1.m = .ok fresh →
      (Intersect h1 h2).1
        = Count h1 + Count h2 - Count (Merge (Merge fresh h1).1 h2).1) ∧
    (∀ fresh, New h1.m = .ok fresh →
      Count h1 + Count h2 < Count (Merge (Merge fresh h1).1 h2).1 →
      (Intersect h1 h2).1 = 0) ∧
    (Intersect h1 h2).1 ≤ Count h1 + Count h2 := by
  obtain ⟨k, hk⟩ := hpow
  have hm0 : 0 < h1.m := by rw [hk]; positivity
  have hland : h1.m &&& (h1.m - 1) = 0 := (land_pred_eq_zero_iff hm0).mpr ⟨k, hk⟩
  have hnew : New h1.m = .ok (Reset ⟨h1.m, log2ceil h1.m, get_alpha h1.m, []⟩) := by
    rw [New, if_neg (by simp [hland])]
  have hne : ¬h1.m ≠ h2.m := by omega
  set fresh0 := Reset ⟨h1.m, log2ceil h1.m, get_alpha h1.m, []⟩ with hf
  set u := Count (Merge (Merge fresh0 h1).1 h2).1 with hu
  set c := Count h1 + Count h2 with hc
  have hint : Intersect h1 h2 = if u > c then (0, none) else (c - u, none) := by
    rw [Intersect, if_neg hne, hnew]
  have hfr0 : ∀ fresh, New h1.m = .ok fresh → fresh = fresh0 := by
    intro fresh hfr
    exact (Except.ok.inj (hnew.symm.trans hfr)).symm
  refine ⟨?_, ?_, ?_, ?_⟩
  · rw [hint]
    split <;> rfl
  · intro fresh hfr
    rw [hfr0 fresh hfr, hint]
    split
    · rename_i hgt
      show 0 = c - u
      omega
    · rfl
  · intro fresh hfr hlt
    rw [hfr0 fresh hfr] at hlt
    rw [hint, if_pos hlt]
  · rw [hint]
    split
    · simp
    · show c - u ≤ c
      omega

/-- Witness for C5 at a concrete pair of estimators. -/
theorem C5_intersect_spec_witness :
    sample16.m = sample16.m ∧ sample16.m = 2 ^ 4 ∧
    (Intersect sample16 sample16).2 = none :=
  ⟨rfl, rfl, (C5_intersect_spec sample16 sample16 rfl ⟨4, rfl⟩).1⟩

theorem sum_map_nonneg (l : List ℕ) :
    0 ≤ (l.map (fun val => 1 / (2 : ℝ) ^ val)).sum := by
  apply List.sum_nonneg
  intro x hx
  simp only [List.mem_map] at hx
  obtain ⟨a, -, rfl⟩ := hx
  positivity

theorem sum_map_pos {l : List ℕ} (hl : l ≠ []) :
    0 < (l.map (fun val => 1 / (2 : ℝ) ^ val)).sum := by
  cases l with
  | nil => exact absurd rfl hl
  | cons a t =>
    rw [List.map_cons, List.sum_cons]
    have h1 : (0 : ℝ) < 1 / 2 ^ a := by positivity
    have h2 := sum_map_nonneg t
    linarith

theorem sum_mergeRegisters_le (l1 l2 : List ℕ) (h : l1.length = l2.length) :
    ((mergeRegisters l1 l2).map (fun val => 1 / (2 : ℝ) ^ val)).sum
      ≤ (l1.map (fun val => 1 / (2 : ℝ) ^ val)).sum := by
  induction l1 generalizing l2 with
  | nil =>
    cases l2 with
    | nil => simp [mergeRegisters]
    | cons b t2 => simp at h
  | cons a t ih =>
    cases l2 with
    | nil => simp at h
    | cons b t2 =>
      rw [mergeRegisters_cons, List.map_cons, List.map_cons,
        List.sum_cons, List.sum_cons]
      have hterm : 1 / (2 : ℝ) ^ (max a b) ≤ 1 / (2 : ℝ) ^ a :=
        one_div_le_one_div_of_le (by positivity)
          (pow_le_pow_right₀ one_le_two (le_max_left a b))
      have hrest := ih t2 (by simpa using h)
      linarith

/-- C7 (amended): the register-wise maximum never decreases any register,
so the raw (uncorrected) harmonic-mean estimate of the merged state is at
least the raw estimate of either input. (The corrected `Count` itself is
not monotone; see the counterexample.) -/
theorem C7_amended_raw_monotone (h1 h2 : HyperLogLog) (hm : h1.m = h2.m)
    (hl1 : h1.registers.length = h1.m) (hl2 : h2.registers.length = h2.m)
    (hm0 : 0 < h1.m) (ha : 0 ≤ h1.alpha) (hab : h1.alpha = h2.alpha) :
    rawEstimate h1 ≤ rawEstimate (Merge h1 h2).1 ∧
    rawEstimate h2 ≤ rawEstimate (Merge h1 h2).1 := by
  have hlen : h1.registers.length = h2.registers.length := by omega
  have hmerge : (Merge h1 h2).1
      = { h1 with registers := mergeRegisters h1.registers h2.registers } := by
    rw [Merge, if_neg (by omega)]
  have hne1 : h1.registers ≠ [] := by
    intro hnil
    rw [hnil] at hl1
    simp at hl1
    omega
  have hposM : 0 < ((mergeRegisters h1.registers h2.registers).map
      (fun val => 1 / (2 : ℝ) ^ val)).sum := by
    apply sum_map_pos
    intro hnil
    have hlm := mergeRegisters_length h1.registers h2.registers
    rw [hnil] at hlm
    simp at hlm
    omega
  have hnum : 0 ≤ h1.alpha * (h1.m : ℝ) * (h1.m : ℝ) :=
    mul_nonneg (mul_nonneg ha (Nat.cast_nonneg _)) (Nat.cast_nonneg _)
  constructor
  · rw [hmerge]
    unfold rawEstimate
    exact div_le_div_of_nonneg_left hnum hposM (sum_mergeRegisters_le _ _ hlen)
  · rw [hmerge]
    unfold rawEstimate
    rw [mergeRegisters_comm hlen]
    have hposM2 : 0 < ((mergeRegisters h2.registers h1.registers).map
        (fun val => 1 / (2 : ℝ) ^ val)).sum := by
      rw [← mergeRegisters_comm hlen]
      exact hposM
    rw [show ({ h1 with registers := mergeRegisters h2.registers h1.registers}
        : HyperLogLog).alpha = h2.alpha from hab,
      show ({ h1 with registers := mergeRegisters h2.registers h1.registers}
        : HyperLogLog).m = h2.m from hm]
    exact div_le_div_of_nonneg_left
      (hab ▸ hm ▸ hnum) hposM2 (sum_mergeRegisters_le _ _ hlen.symm)

/-- Witness for the amended C7 at a concrete estimator. -/
theorem C7_amended_raw_monotone_witness :
    rawEstimate sample16 ≤ rawEstimate (Merge sample16 sample16).1 :=
  (C7_amended_raw_monotone sample16 sample16 rfl (by simp [sample16])
    (by simp [sample16]) (by norm_num [sample16])
    (by norm_num [sample16, get_alpha]) rfl).1

/-- Register state A: one empty register, fifteen at rank 1
(m = 16, `alpha = get_alpha 16 = 0.673`). -/
noncomputable def estA : HyperLogLog :=
  { m := 16, b := 4, alpha := 0.673, registers := 0 :: List.replicate 15 1 }

/-- Register state B: all sixteen registers at rank 1. -/
noncomputable def estB : HyperLogLog :=
  { m := 16, b := 4, alpha := 0.673, registers := List.replicate 16 1 }

/-- Counterexample for C7: `estA` and `estB` are valid 16-register states
(with the constructor's alpha), yet `Count (Merge estA estB) = 21` is
strictly below `Count estA ≥ 22` — the small-range linear-counting branch
makes `Count` non-monotone under register-wise max. -/
theorem C7_counterexample :
    estA.m = estB.m ∧ estA.registers.length = estA.m ∧
    estB.registers.length = estB.m ∧ estA.alpha = get_alpha estA.m ∧
    (Merge estA estB).1.registers = estB.registers ∧
    Count (Merge estA estB).1 < Count estA := by
  have hregs : mergeRegisters estA.registers estB.registers
      = List.replicate 16 1 := by decide
  have hmerged : (Merge estA estB).1 = estB := by
    rw [Merge, if_neg (by decide), hregs]
    rfl
  have hsumB : (estB.registers.map (fun val => 1 / (2 : ℝ) ^ val)).sum = 8 := by
    show ((List.replicate 16 (1 : ℕ)).map (fun val => 1 / (2 : ℝ) ^ val)).sum = 8
    rw [List.map_replicate, List.sum_replicate, nsmul_eq_mul]
    norm_num
  have hcountB : estB.registers.count 0 = 0 := by decide
  have hB := Count_eq_of_sum estB 8 hsumB
  rw [hcountB] at hB
  simp only [estB] at hB
  norm_num at hB
  have hestB : estB = ⟨16, 4, 673 / 1000, List.replicate 16 1⟩ := by
    simp only [estB, HyperLogLog.mk.injEq]
    norm_num
  have hB' : Count estB = Int.toNat 21 := by
    rw [hestB]
    exact hB
  have hsumA : (estA.registers.map (fun val => 1 / (2 : ℝ) ^ val)).sum = 17 / 2 := by
    show (((0 : ℕ) :: List.replicate 15 1).map (fun val => 1 / (2 : ℝ) ^ val)).sum = 17 / 2
    rw [List.map_cons, List.sum_cons, List.map_replicate, List.sum_replicate,
      nsmul_eq_mul]
    norm_num
  have hcountA : estA.registers.count 0 = 1 := by decide
  have hA := Count_eq_of_sum estA (17 / 2) hsumA
  rw [hcountA] at hA
  simp only [estA] at hA
  norm_num at hA
  have hestA : estA = ⟨16, 4, 673 / 1000, 0 :: List.replicate 15 1⟩ := by
    simp only [estA, HyperLogLog.mk.injEq]
    norm_num
  have hA' : Count estA = (⌊(16 : ℝ) * Real.log 16⌋).toNat := by
    rw [hestA]
    exact hA
  have hlog : (22 : ℝ) ≤ 16 * Real.log 16 := by
    have h2 : Real.log 16 = 4 * Real.log 2 := by
      rw [show (16 : ℝ) = 2 ^ (4 : ℕ) by norm_num, Real.log_pow]
      push_cast
      ring
    rw [h2]
    nlinarith [Real.log_two_gt_d9]
  have hfl : (22 : ℤ) ≤ ⌊(16 : ℝ) * Real.log 16⌋ :=
    Int.le_floor.mpr (by push_cast; linarith)
  have hA22 : 22 ≤ Count estA := by
    rw [hA']
    exact (Int.le_toNat (by omega)).mpr hfl
  refine ⟨rfl, by decide, by decide, by simp [estA, get_alpha], ?_, ?_⟩
  · rw [hmerged]
  · rw [hmerged, hB']
    omega

end Hyperloglog
